import Mathlib

/-
Shallow embedding of the sentence-segmentation and audio-pipeline logic of
custom_components/edge_tts (stream_processor.py and tts.py).

Strings are modelled as `List Char`.  Encoded audio byte strings are modelled
as `List Nat`.  The external edge-tts synthesis transport is modelled by an
oracle giving, per sentence, the list of audio chunks it yields before the
stream ends (normally or by a swallowed exception) together with an error
flag; the external pydub codec is modelled by an abstract `Codec` with a
duration-returning decoder and a duration-indexed encoder.

The text normalizer `_preprocess_stream` (the external
`remove_incompatible_characters` of the edge_tts package plus removal of the
`*` marker) is not modelled: the claims below are about the segmenter and
the pipeline downstream of it, which consume the already-normalized chunks.
-/

set_option maxHeartbeats 2000000
set_option maxRecDepth 100000

namespace EdgeTts

/-- Characters removed by Python `str.strip` (ASCII whitespace). -/
def isWs (c : Char) : Bool :=
  c == ' ' || c == '\t' || c == '\n' || c == '\r' || c == '\x0b' || c == '\x0c'

/-- Python `str.strip`: drop leading and trailing whitespace. -/
def strip (l : List Char) : List Char :=
  ((l.dropWhile isWs).reverse.dropWhile isWs).reverse

/-- A word-forming character, as matched by the regex class `\w`. -/
def isWord (c : Char) : Bool := c.isAlphanum || c == '_'

/-- `re.search` of `\w` on a string: does some character form a word. -/
def hasWord (l : List Char) : Bool := l.any isWord

/-- A sentence-terminating character, the regex class `[.!?]`. -/
def isTerm (c : Char) : Bool := c == '.' || c == '!' || c == '?'

/-- The decimal placeholder `##DEC##` of `_find_sentence`. -/
def PHl : List Char := ['#', '#', 'D', 'E', 'C', '#', '#']

/-- Characters that occur in the placeholder `##DEC##`. -/
def phChar (c : Char) : Bool := c == '#' || c == 'D' || c == 'E' || c == 'C'

/-- `re.sub(r'(\d)\.(\d)', r'\1##DEC##\2', s)`: replace every
digit-period-digit occurrence, scanning left to right and resuming after
each match (so the second digit of a match cannot start a new one). -/
def protect : List Char → List Char
  | [] => []
  | [a] => [a]
  | [a, b] => [a, b]
  | a :: p :: c :: r =>
    if a.isDigit && (p == '.') && c.isDigit then
      a :: '#' :: '#' :: 'D' :: 'E' :: 'C' :: '#' :: '#' :: c :: protect r
    else a :: protect (p :: c :: r)

/-- `s.replace("##DEC##", ".")`: replace every occurrence of the placeholder
by a period, scanning left to right. -/
def restore : List Char → List Char
  | a :: c2 :: c3 :: c4 :: c5 :: c6 :: c7 :: r =>
    if a == '#' && c2 == '#' && c3 == 'D' && c4 == 'E' && c5 == 'C' && c6 == '#' && c7 == '#' then
      '.' :: restore r
    else a :: restore (c2 :: c3 :: c4 :: c5 :: c6 :: c7 :: r)
  | [] => []
  | a :: t => a :: restore t

/-- Index of the first character satisfying `p` (`re.search`). -/
def firstIdxP (p : Char → Bool) : List Char → Option Nat
  | [] => none
  | c :: t => if p c then some 0 else (firstIdxP p t).map (· + 1)

/-- Index of the last character satisfying `p` (Python `str.rfind`). -/
def lastIdxP (p : Char → Bool) : List Char → Option Nat
  | [] => none
  | c :: t =>
    match lastIdxP p t with
    | some i => some (i + 1)
    | none => if p c then some 0 else none

/-- The `max_chars` length threshold of `_find_sentence`. -/
def max_chars : Nat := 200

/-- `EdgeStreamProcessor._find_sentence`: extract the first complete sentence
from the buffer.  Decimal points are protected, the first `[.!?]` terminator
is searched for, and overlong terminator-free buffers are split at the last
space in the first `max_chars + 20` characters (if at positive index) or hard
at `max_chars`. -/
def find_sentence (buffer : List Char) : List Char × List Char :=
  if buffer = [] then ([], [])
  else
    let safe := protect buffer
    match firstIdxP isTerm safe with
    | some idx =>
      (strip (restore (safe.take (idx + 1))), strip (restore (safe.drop (idx + 1))))
    | none =>
      if max_chars < safe.length then
        match lastIdxP (fun c => c == ' ') (safe.take (max_chars + 20)) with
        | some i =>
          if 0 < i then (strip (restore (safe.take i)), strip (restore (safe.drop i)))
          else (strip (restore (safe.take max_chars)), strip (restore (safe.drop max_chars)))
        | none =>
          (strip (restore (safe.take max_chars)), strip (restore (safe.drop max_chars)))
      else ([], buffer)

/-- One run of the inner `while True` loop of `_sentence_generator`, with
explicit fuel; each iteration extracts one sentence (kept only if it has a
word-forming character) and continues on the remainder, stopping when
`_find_sentence` returns an empty sentence. -/
def extractLoopF : Nat → List Char → List (List Char) × List Char
  | 0, b => ([], b)
  | fuel + 1, b =>
    let p := find_sentence b
    if p.1 = [] then ([], b)
    else
      let q := extractLoopF fuel p.2
      ((if hasWord p.1 then [p.1] else []) ++ q.1, q.2)

/-- The inner loop of `_sentence_generator` (fuel `b.length + 1` suffices
because each extracted sentence strictly shortens the buffer). -/
def extractLoop (b : List Char) : List (List Char) × List Char :=
  extractLoopF (b.length + 1) b

/-- Segmenter state: the accumulation buffer and the sentences emitted. -/
structure GenSt where
  buffer : List Char
  out : List (List Char)
deriving DecidableEq

/-- Processing of one incoming chunk by `_sentence_generator`. -/
def feedChunk (st : GenSt) (c : List Char) : GenSt :=
  let b := st.buffer ++ c
  let q := extractLoop b
  ⟨q.2, st.out ++ q.1⟩

/-- End-of-stream flush of `_sentence_generator`: emit the stripped buffer
remainder when it is nonempty and contains a word-forming character. -/
def flushGen (st : GenSt) : List (List Char) :=
  let s := strip st.buffer
  st.out ++ (if s ≠ [] ∧ hasWord s then [s] else [])

/-- `EdgeStreamProcessor._sentence_generator` on a finite stream of chunks. -/
def sentence_generator (chunks : List (List Char)) : List (List Char) :=
  flushGen (chunks.foldl feedChunk ⟨[], []⟩)

/-- `TRIM_MS_FROM_END`: milliseconds cut from the end of every clip. -/
def TRIM_MS_FROM_END : Nat := 750

/-- Abstract model of the pydub codec: a decoder returning the decoded
duration in milliseconds (`none` = decoding raises) and an encoder producing
the exported bytes of a clip of a given duration. -/
structure Codec where
  decode : List Nat → Option Nat
  encodeDuration : Nat → List Nat

/-- `EdgeStreamProcessor._trim_end_of_audio`: decode the clip; clips of
duration at most `TRIM_MS_FROM_END` are returned byte-identical, longer ones
are cut by exactly `TRIM_MS_FROM_END` and re-exported, and a decoding failure
returns the original bytes. -/
def trim_end (c : Codec) (data : List Nat) : List Nat :=
  match c.decode data with
  | none => data
  | some d => if d ≤ TRIM_MS_FROM_END then data else c.encodeDuration (d - TRIM_MS_FROM_END)

/-- Model of the external synthesis transport: for the `i`-th sentence with
the given text, the audio chunks it yields before its stream ends, and
whether it ended by raising (the exception is swallowed by
`_synthesize_and_stream`, which keeps the chunks already yielded). -/
def Oracle : Type := Nat → List Char → List (List Nat) × Bool

/-- `EdgeStreamProcessor._synthesize_and_stream` followed by the accumulation
loop of the caller: the concatenation of all audio chunks yielded (none when
the text has no word-forming character). -/
def synthesize_and_stream (o : Oracle) (i : Nat) (s : List Char) : List Nat :=
  if hasWord s then ((o i s).1).flatten else []

/-- The per-sentence body of `_process_all_text`: accumulate the synthesized
bytes, skip the sentence if they are empty, trim the end, and skip the
sentence if the trimmed clip is empty; otherwise this is the sentence's
output frame. -/
def synthFrame (o : Oracle) (c : Codec) (i : Nat) (s : List Char) : Option (List Nat) :=
  let bs := synthesize_and_stream o i s
  if bs = [] then none
  else
    let t := trim_end c bs
    if t = [] then none else some t

/-- `EdgeStreamProcessor._process_all_text`: the frames put on the output
queue, processing the sentences one at a time in order (the loop awaits each
sentence's synthesis and trim before starting the next). -/
def process_all_text (o : Oracle) (c : Codec) : Nat → List (List Char) → List (List Nat)
  | _, [] => []
  | i, s :: rest =>
    match synthFrame o c i s with
    | none => process_all_text o c (i + 1) rest
    | some t => t :: process_all_text o c (i + 1) rest

/-- The frames of `_process_all_text` tagged with the sequence number of the
sentence that produced them. -/
def processFrom (o : Oracle) (c : Codec) : Nat → List (List Char) → List (Nat × List Nat)
  | _, [] => []
  | i, s :: rest =>
    match synthFrame o c i s with
    | none => processFrom o c (i + 1) rest
    | some t => (i, t) :: processFrom o c (i + 1) rest

/-- `EdgeStreamProcessor.async_process_stream`: the consumer loop forwards
every queue item until the `None` sentinel, so the frames delivered are
exactly the frames the producer put on the queue, in order. -/
def async_process_stream (o : Oracle) (c : Codec) (chunks : List (List Char)) : List (List Nat) :=
  process_all_text o c 0 (sentence_generator chunks)

/-- The MP3 extension tag returned by the entity. -/
def mp3Ext : String := "mp3"

/-- `EdgeTtsEntity.async_get_tts_audio` (tts.py): collect the frames of
`async_process_stream` on the one-chunk stream of the message; return
`("mp3", None)` when there are none and `("mp3", b"".join(frames))`
otherwise. -/
def async_get_tts (o : Oracle) (c : Codec) (message : List Char) : String × Option (List Nat) :=
  let chunks := async_process_stream o c [message]
  if chunks = [] then (mp3Ext, none) else (mp3Ext, some chunks.flatten)

/-- The trimmed decoded segments collected by
`async_process_to_single_file`: per sentence, skip empty-stripped text, skip
empty synthesis output, skip undecodable clips (the decode exception is
caught and the sentence dropped), and keep the decoded duration cut by
`TRIM_MS_FROM_END` when longer than it. -/
def segsFrom (o : Oracle) (c : Codec) : Nat → List (List Char) → List Nat
  | _, [] => []
  | i, s :: rest =>
    if strip s = [] then segsFrom o c (i + 1) rest
    else
      let bs := synthesize_and_stream o i s
      if bs = [] then segsFrom o c (i + 1) rest
      else
        match c.decode bs with
        | none => segsFrom o c (i + 1) rest
        | some d =>
          (if TRIM_MS_FROM_END < d then d - TRIM_MS_FROM_END else d) :: segsFrom o c (i + 1) rest

/-- `EdgeStreamProcessor.async_process_to_single_file`: segment the text,
collect the trimmed segments, return `None` when there are none, otherwise
join them (durations add) and export once. -/
def async_process_to_single_file (o : Oracle) (c : Codec) (text : List Char) : Option (List Nat) :=
  let segs := segsFrom o c 0 (sentence_generator [text])
  if segs = [] then none else some (c.encodeDuration segs.sum)

/-- Events of the synthesis schedule of `_process_all_text`. -/
inductive SynthEv where
  | start : Nat → SynthEv
  | finish : Nat → SynthEv
deriving DecidableEq

/-- The event trace of the sequential loop of `_process_all_text`: each
sentence's synthesis is started and awaited to completion before the next
sentence's synthesis is started. -/
def eventsOf : List Nat → List SynthEv
  | [] => []
  | i :: is => .start i :: .finish i :: eventsOf is

/-- Number of synthesis operations outstanding after a list of events. -/
def outstandingAfter (l : List SynthEv) : Nat :=
  l.foldl (fun a e => match e with | .start _ => a + 1 | .finish _ => a - 1) 0

/-- The split offset chosen by the forced-split branch of `_find_sentence`
(a terminator-free protected buffer longer than `max_chars`): the last space
of the first `max_chars + 20` protected characters when it sits at a
positive index, otherwise exactly `max_chars`. -/
def forcedIdx (b : List Char) : Nat :=
  match lastIdxP (fun c => c == ' ') ((protect b).take (max_chars + 20)) with
  | some i => if 0 < i then i else max_chars
  | none => max_chars

/-- Cumulative lengths of a chunk list, starting from offset `p`: the buffer
lengths at which `_sentence_generator` runs its extraction loop. -/
def chunkSums (p : Nat) : List (List Char) → List Nat
  | [] => []
  | c :: rest => (p + c.length) :: chunkSums (p + c.length) rest

/-- The decimal-point example text of the specification. -/
def textC : List Char := String.toList "The value is 3.14 and 2.71, done."

/-- A chunking of `textC` that cuts right after the decimal point of 3.14. -/
def chunk1C : List Char := String.toList "The value is 3."

/-- The rest of `textC` after `chunk1C`. -/
def chunk2C : List Char := String.toList "14 and 2.71, done."

/-- A chunking of `textC` that cuts between the 1 and the 4 of 3.14. -/
def chunk1good : List Char := String.toList "The value is 3.1"

/-- The rest of `textC` after `chunk1good`. -/
def chunk2good : List Char := String.toList "4 and 2.71, done."

/-- A one-sentence sample text. -/
def hiC : List Char := String.toList "Hi."

/-- A concrete lawful codec: the decoded duration of a byte string is its
length, and a clip of duration `n` exports to `n` zero bytes. -/
def toyCodec : Codec := ⟨fun bs => some bs.length, fun n => List.replicate n 0⟩

/-- An oracle whose synthesis streams always fail before yielding audio. -/
def failOracle : Oracle := fun _ _ => ([], true)

/-- An oracle whose synthesis streams yield one audio chunk and then raise
(the error is swallowed after partial audio was produced). -/
def partialErrOracle : Oracle := fun _ _ => ([[5]], true)

/-- An oracle whose synthesis streams yield one audio chunk and complete. -/
def okOracle : Oracle := fun _ _ => ([[7]], false)

/-- A terminator-free buffer longer than `max_chars` whose only space is in
the middle: 100 letters, one space, 100 letters. -/
def cexC3 : List Char := List.replicate 100 'a' ++ ' ' :: List.replicate 100 'b'

/-- A terminator-free buffer longer than `max_chars` whose only whitespace
is the space at index 0. -/
def cexC7 : List Char := ' ' :: List.replicate 220 'a'

/-- A terminator-free buffer longer than `max_chars` with a space at
positive index 150. -/
def wbSplit : List Char := List.replicate 150 'a' ++ ' ' :: List.replicate 100 'b'

/- ### Lemmas on the sequential processing loop -/

lemma process_all_text_eq_map (o : Oracle) (c : Codec) :
    ∀ (l : List (List Char)) (i : Nat),
      process_all_text o c i l = (processFrom o c i l).map Prod.snd := by
  intro l
  induction l with
  | nil => intro i; rfl
  | cons s rest ih =>
    intro i
    simp only [process_all_text, processFrom]
    cases synthFrame o c i s with
    | none => exact ih (i + 1)
    | some t => simp [ih (i + 1)]

lemma processFrom_mem_le (o : Oracle) (c : Codec) :
    ∀ (l : List (List Char)) (i : Nat) (x : Nat × List Nat),
      x ∈ processFrom o c i l → i ≤ x.1 := by
  intro l
  induction l with
  | nil => intro i x hx; simp [processFrom] at hx
  | cons s rest ih =>
    intro i x hx
    simp only [processFrom] at hx
    cases h : synthFrame o c i s with
    | none =>
      rw [h] at hx
      exact le_trans (Nat.le_succ i) (ih (i + 1) x hx)
    | some t =>
      rw [h] at hx
      rcases List.mem_cons.mp hx with h1 | h1
      · simp [h1]
      · exact le_trans (Nat.le_succ i) (ih (i + 1) x h1)

lemma processFrom_pairwise (o : Oracle) (c : Codec) :
    ∀ (l : List (List Char)) (i : Nat),
      (processFrom o c i l).Pairwise (fun x y => x.1 < y.1) := by
  intro l
  induction l with
  | nil => intro i; simp [processFrom]
  | cons s rest ih =>
    intro i
    simp only [processFrom]
    cases h : synthFrame o c i s with
    | none => exact ih (i + 1)
    | some t =>
      refine List.pairwise_cons.mpr ⟨?_, ih (i + 1)⟩
      intro y hy
      exact lt_of_lt_of_le (Nat.lt_succ_self i) (processFrom_mem_le o c rest (i + 1) y hy)

lemma processFrom_mem_iff (o : Oracle) (c : Codec) :
    ∀ (l : List (List Char)) (i j : Nat) (t : List Nat),
      ((j, t) ∈ processFrom o c i l ↔
        ∃ s, l.get? (j - i) = some s ∧ i ≤ j ∧ synthFrame o c j s = some t) := by
  intro l
  induction l with
  | nil => intro i j t; simp [processFrom]
  | cons s rest ih =>
    intro i j t
    simp only [processFrom]
    constructor
    · intro hx
      cases h : synthFrame o c i s with
      | none =>
        rw [h] at hx
        rcases (ih (i + 1) j t).mp hx with ⟨s2, hget, hle, hframe⟩
        refine ⟨s2, ?_, le_trans (Nat.le_succ i) hle, hframe⟩
        have : j - i = (j - (i + 1)) + 1 := by omega
        rw [this]
        simpa using hget
      | some u =>
        rw [h] at hx
        rcases List.mem_cons.mp hx with h1 | h1
        · have hj : j = i := by simpa using congrArg Prod.fst h1
          have ht : u = t := by simpa using (congrArg Prod.snd h1).symm
          subst hj
          exact ⟨s, by simp, le_rfl, by rw [h, ht]⟩
        · rcases (ih (i + 1) j t).mp h1 with ⟨s2, hget, hle, hframe⟩
          refine ⟨s2, ?_, le_trans (Nat.le_succ i) hle, hframe⟩
          have : j - i = (j - (i + 1)) + 1 := by omega
          rw [this]
          simpa using hget
    · rintro ⟨s2, hget, hle, hframe⟩
      rcases Nat.eq_or_lt_of_le hle with hji | hji
      · subst hji
        simp only [Nat.sub_self, List.get?] at hget
        cases hget
        rw [hframe]
        exact List.mem_cons_self _ _
      · have hsub : j - i = (j - (i + 1)) + 1 := by omega
        rw [hsub] at hget
        simp only [List.get?] at hget
        have hmem : (j, t) ∈ processFrom o c (i + 1) rest :=
          (ih (i + 1) j t).mpr ⟨s2, hget, by omega, hframe⟩
        cases synthFrame o c i s with
        | none => exact hmem
        | some u => exact List.mem_cons_of_mem _ hmem

lemma process_all_text_append (o : Oracle) (c : Codec) :
    ∀ (l1 l2 : List (List Char)) (i : Nat),
      process_all_text o c i (l1 ++ l2) =
        process_all_text o c i l1 ++ process_all_text o c (i + l1.length) l2 := by
  intro l1
  induction l1 with
  | nil => intro l2 i; simp [process_all_text]
  | cons s rest ih =>
    intro l2 i
    have harith : i + 1 + rest.length = i + (s :: rest).length := by
      simp [Nat.add_comm, Nat.add_assoc, Nat.add_left_comm]
    cases h : synthFrame o c i s with
    | none =>
      simp only [List.cons_append, process_all_text, h, List.append_eq]
      rw [ih l2 (i + 1), harith]
    | some t =>
      simp only [List.cons_append, process_all_text, h, List.append_eq]
      rw [ih l2 (i + 1), harith]

/- ### Structural lemmas on `protect` and `restore` -/

lemma protect_cases (b : List Char) :
    b = [] ∨
    (∃ a p c r, b = a :: p :: c :: r ∧ (a.isDigit && (p == '.') && c.isDigit) = true ∧
      protect b = a :: '#' :: '#' :: 'D' :: 'E' :: 'C' :: '#' :: '#' :: c :: protect r) ∨
    (∃ a t, b = a :: t ∧ protect b = a :: protect t) := by
  match b with
  | [] => exact Or.inl rfl
  | [a] => exact Or.inr (Or.inr ⟨a, [], rfl, by simp [protect]⟩)
  | [a, p] => exact Or.inr (Or.inr ⟨a, [p], rfl, by simp [protect]⟩)
  | a :: p :: c :: r =>
    by_cases h : (a.isDigit && (p == '.') && c.isDigit) = true
    · exact Or.inr (Or.inl ⟨a, p, c, r, rfl, h, by simp [protect, h]⟩)
    · refine Or.inr (Or.inr ⟨a, p :: c :: r, rfl, ?_⟩)
      simp only [protect, if_neg h]

lemma protect_cons_of_nondigit (a : Char) (t : List Char) (h : a.isDigit = false) :
    protect (a :: t) = a :: protect t := by
  rcases protect_cases (a :: t) with h1 | ⟨a2, p, c, r, heq, hcond, hpr⟩ | ⟨a2, t2, heq, hpr⟩
  · cases h1
  · rw [List.cons.injEq] at heq
    rcases heq with ⟨rfl, rfl⟩
    rw [Bool.and_eq_true, Bool.and_eq_true] at hcond
    rw [h] at hcond
    simp at hcond
  · rw [List.cons.injEq] at heq
    rcases heq with ⟨rfl, rfl⟩
    exact hpr

lemma protect_ph_append (r : List Char) :
    protect (PHl ++ r) = PHl ++ protect r := by
  simp only [PHl, List.cons_append, List.nil_append]
  rw [protect_cons_of_nondigit '#' _ (by decide)]
  rw [protect_cons_of_nondigit '#' _ (by decide)]
  rw [protect_cons_of_nondigit 'D' _ (by decide)]
  rw [protect_cons_of_nondigit 'E' _ (by decide)]
  rw [protect_cons_of_nondigit 'C' _ (by decide)]
  rw [protect_cons_of_nondigit '#' _ (by decide)]
  rw [protect_cons_of_nondigit '#' _ (by decide)]

lemma restore_ph (r : List Char) :
    restore ('#' :: '#' :: 'D' :: 'E' :: 'C' :: '#' :: '#' :: r) = '.' :: restore r := by
  simp [restore]

lemma restore_cons (x : Char) (l : List Char) (h : (x :: l).take 7 ≠ PHl) :
    restore (x :: l) = x :: restore l := by
  match x, l with
  | x, [] => rfl
  | x, [c2] => rfl
  | x, [c2, c3] => rfl
  | x, [c2, c3, c4] => rfl
  | x, [c2, c3, c4, c5] => rfl
  | x, [c2, c3, c4, c5, c6] => rfl
  | x, c2 :: c3 :: c4 :: c5 :: c6 :: c7 :: r =>
    by_cases hc : (x == '#' && c2 == '#' && c3 == 'D' && c4 == 'E' && c5 == 'C' && c6 == '#' && c7 == '#') = true
    · exfalso
      apply h
      simp only [Bool.and_eq_true, beq_iff_eq] at hc
      obtain ⟨⟨⟨⟨⟨⟨h1, h2⟩, h3⟩, h4⟩, h5⟩, h6⟩, h7⟩ := hc
      subst h1; subst h2; subst h3; subst h4; subst h5; subst h6; subst h7
      rfl
    · simp only [restore, if_neg hc]

lemma restore_len_le : ∀ (n : Nat) (l : List Char), l.length ≤ n → (restore l).length ≤ l.length := by
  intro n
  induction n with
  | zero =>
    intro l hl
    have : l = [] := List.length_eq_zero.mp (Nat.le_zero.mp hl)
    subst this
    simp [restore]
  | succ n ih =>
    intro l hl
    by_cases hPH : l.take 7 = PHl
    · have hlen : 7 ≤ l.length := by
        have := congrArg List.length hPH
        simp [PHl] at this
        omega
      have hsplit : l = PHl ++ l.drop 7 := by
        conv_lhs => rw [← List.take_append_drop 7 l]
        rw [hPH]
      rw [hsplit]
      simp only [PHl, List.cons_append, List.nil_append]
      rw [restore_ph]
      have hrec := ih (l.drop 7) (by simp; omega)
      simp only [List.length_cons, List.length_drop] at *
      omega
    · match l with
      | [] => simp [restore]
      | x :: m =>
        rw [restore_cons x m hPH]
        have hrec := ih m (by simp at hl; omega)
        simp only [List.length_cons]
        omega

lemma take_protect_eq (pat : List Char) (hpat : ∀ ch ∈ pat, ch.isDigit = false ∧ ch ≠ '.') :
    ∀ s : List Char, ((protect s).take pat.length = pat ↔ s.take pat.length = pat) := by
  induction pat with
  | nil => intro s; simp
  | cons p ps ih =>
    intro s
    have hp : p.isDigit = false ∧ p ≠ '.' := hpat p (List.mem_cons_self _ _)
    have hps : ∀ ch ∈ ps, ch.isDigit = false ∧ ch ≠ '.' := fun ch hch => hpat ch (List.mem_cons_of_mem _ hch)
    rcases protect_cases s with rfl | ⟨a, q, c, r, rfl, hcond, hpr⟩ | ⟨a, t, rfl, hpr⟩
    · simp [protect]
    · rw [hpr]
      simp only [List.length_cons, List.take_succ_cons, List.cons.injEq]
      have ha : a ≠ p := by
        intro he
        rw [Bool.and_eq_true, Bool.and_eq_true] at hcond
        rw [he] at hcond
        rw [hp.1] at hcond
        simp at hcond
      constructor
      · rintro ⟨he, -⟩; exact absurd he ha
      · rintro ⟨he, -⟩; exact absurd he ha
    · rw [hpr]
      simp only [List.length_cons, List.take_succ_cons, List.cons.injEq]
      rw [ih hps t]

lemma take7_ne (L : List Char) (k : Nat) (hk : k < 7) (ch : Char)
    (hL : L.get? k = some ch) (hne : PHl.get? k ≠ some ch) : L.take 7 ≠ PHl := by
  intro he
  apply hne
  rw [← he, List.get?_take hk, hL]

lemma restore_cons_head (x : Char) (l : List Char) (hx : x ≠ '#') :
    restore (x :: l) = x :: restore l := by
  refine restore_cons x l (take7_ne _ 0 (by decide) x rfl ?_)
  simp only [PHl, List.get?]
  exact fun he => hx (Option.some.inj he).symm

lemma restore_cons1 (x : Char) (l : List Char) (hx : x ≠ '#') :
    restore ('#' :: x :: l) = '#' :: restore (x :: l) := by
  refine restore_cons '#' (x :: l) (take7_ne _ 1 (by decide) x rfl ?_)
  simp only [PHl, List.get?]
  exact fun he => hx (Option.some.inj he).symm

lemma restore_cons2 (x : Char) (l : List Char) (hx : x ≠ 'D') :
    restore ('#' :: '#' :: x :: l) = '#' :: restore ('#' :: x :: l) := by
  refine restore_cons '#' ('#' :: x :: l) (take7_ne _ 2 (by decide) x rfl ?_)
  simp only [PHl, List.get?]
  exact fun he => hx (Option.some.inj he).symm

lemma digit_ne (c : Char) (hc : c.isDigit = true) :
    c ≠ '#' ∧ c ≠ 'D' ∧ c ≠ 'E' ∧ c ≠ 'C' := by
  refine ⟨?_, ?_, ?_, ?_⟩ <;> intro he <;> rw [he] at hc <;> exact absurd hc (by decide)

lemma restore_protect_le :
    ∀ (n : Nat) (b : List Char), b.length ≤ n → (restore (protect b)).length ≤ b.length := by
  intro n
  induction n with
  | zero =>
    intro b hb
    have hbe : b = [] := List.length_eq_zero.mp (Nat.le_zero.mp hb)
    subst hbe
    simp [protect, restore]
  | succ n ih =>
    intro b hb
    by_cases hPH : b.take 7 = PHl
    · have hlen : 7 ≤ b.length := by
        have h7 := congrArg List.length hPH
        simp only [List.length_take, PHl, List.length_cons, List.length_nil] at h7
        omega
      have hsplit : b = PHl ++ b.drop 7 := by
        conv_lhs => rw [← List.take_append_drop 7 b]
        rw [hPH]
      rw [hsplit, protect_ph_append]
      simp only [PHl, List.cons_append, List.nil_append]
      rw [restore_ph]
      have hrec := ih (b.drop 7) (by simp only [List.length_drop]; omega)
      simp only [List.length_cons, List.length_append, List.length_nil, List.length_drop]
      simp only [List.length_drop] at hrec
      omega
    · rcases protect_cases b with rfl | ⟨a, p, c, r, rfl, hcond, hpr⟩ | ⟨a, t, rfl, hpr⟩
      · simp [protect, restore]
      · rw [hpr]
        simp only [Bool.and_eq_true, beq_iff_eq] at hcond
        obtain ⟨⟨ha, hpdot⟩, hcdig⟩ := hcond
        rw [restore_cons_head a _ (digit_ne a ha).1]
        rw [restore_ph]
        rw [restore_cons_head c _ (digit_ne c hcdig).1]
        have hrec := ih r (by simp only [List.length_cons] at hb; omega)
        simp only [List.length_cons]
        omega
      · rw [hpr]
        have hne : (a :: protect t).take 7 ≠ PHl := by
          intro he
          apply hPH
          have he2 : (protect (a :: t)).take PHl.length = PHl := by
            rw [hpr]
            simpa [PHl] using he
          have := (take_protect_eq PHl (by decide) (a :: t)).mp he2
          simpa [PHl] using this
        rw [restore_cons a _ hne]
        have hrec := ih t (by simp only [List.length_cons] at hb; omega)
        simp only [List.length_cons]
        omega

lemma restore_phtail (c : Char) (hc : c.isDigit = true) (X : List Char) :
    ∀ m, 1 ≤ m → m ≤ 7 →
      restore (PHl.drop m ++ c :: X) = PHl.drop m ++ c :: restore X := by
  obtain ⟨hc1, hc2, hc3, hc4⟩ := digit_ne c hc
  have base : restore (c :: X) = c :: restore X := restore_cons_head c X hc1
  intro m hm1 hm7
  interval_cases m
  · simp only [PHl, List.drop, List.cons_append, List.nil_append]
    rw [restore_cons1 'D' _ (by decide), restore_cons_head 'D' _ (by decide),
      restore_cons_head 'E' _ (by decide), restore_cons_head 'C' _ (by decide),
      restore_cons2 c _ hc2, restore_cons1 c _ hc1, base]
  · simp only [PHl, List.drop, List.cons_append, List.nil_append]
    rw [restore_cons_head 'D' _ (by decide), restore_cons_head 'E' _ (by decide),
      restore_cons_head 'C' _ (by decide), restore_cons2 c _ hc2, restore_cons1 c _ hc1, base]
  · simp only [PHl, List.drop, List.cons_append, List.nil_append]
    rw [restore_cons_head 'E' _ (by decide), restore_cons_head 'C' _ (by decide),
      restore_cons2 c _ hc2, restore_cons1 c _ hc1, base]
  · simp only [PHl, List.drop, List.cons_append, List.nil_append]
    rw [restore_cons_head 'C' _ (by decide), restore_cons2 c _ hc2, restore_cons1 c _ hc1, base]
  · simp only [PHl, List.drop, List.cons_append, List.nil_append]
    rw [restore_cons2 c _ hc2, restore_cons1 c _ hc1, base]
  · simp only [PHl, List.drop, List.cons_append, List.nil_append]
    rw [restore_cons1 c _ hc1, base]
  · simp only [PHl, List.drop, List.nil_append]
    exact base

lemma clean_cut :
    ∀ (n : Nat) (b : List Char) (j : Nat), b.length ≤ n → 1 ≤ j →
      j ≤ (protect b).length →
      ((∃ ch, (protect b).get? (j - 1) = some ch ∧ phChar ch = false) ∨
        (∀ ch, (protect b).get? j = some ch → phChar ch = false)) →
      (restore ((protect b).drop j)).length + 1 ≤ b.length := by
  intro n
  induction n with
  | zero =>
    intro b j hb hj hjle _
    have hbe : b = [] := List.length_eq_zero.mp (Nat.le_zero.mp hb)
    subst hbe
    simp [protect] at hjle
    omega
  | succ n ih =>
    intro b j hb hj hjle hcond
    rcases protect_cases b with rfl | ⟨a, p, c, r, rfl, hdig, hpr⟩ | ⟨a, t, rfl, hpr⟩
    · simp [protect] at hjle
      omega
    · simp only [Bool.and_eq_true, beq_iff_eq] at hdig
      obtain ⟨⟨ha, hpdot⟩, hcdig⟩ := hdig
      have hRr := restore_protect_le r.length r le_rfl
      rw [hpr] at hjle hcond ⊢
      simp only [List.length_cons] at hjle
      by_cases hj8 : j ≤ 8
      · interval_cases j
        · -- j = 1
          have e1 : (a :: '#' :: '#' :: 'D' :: 'E' :: 'C' :: '#' :: '#' :: c :: protect r).drop 1
              = '#' :: '#' :: 'D' :: 'E' :: 'C' :: '#' :: '#' :: c :: protect r := rfl
          rw [e1, restore_ph, restore_cons_head c _ (digit_ne c hcdig).1]
          simp only [List.length_cons]
          omega
        · -- j = 2 : both disjuncts are refuted by the placeholder characters
          exfalso
          rcases hcond with ⟨ch, hch, hph⟩ | hall
          · cases Option.some.inj hch; exact absurd hph (by decide)
          · exact absurd (hall '#' rfl) (by decide)
        · exfalso
          rcases hcond with ⟨ch, hch, hph⟩ | hall
          · cases Option.some.inj hch; exact absurd hph (by decide)
          · exact absurd (hall 'D' rfl) (by decide)
        · exfalso
          rcases hcond with ⟨ch, hch, hph⟩ | hall
          · cases Option.some.inj hch; exact absurd hph (by decide)
          · exact absurd (hall 'E' rfl) (by decide)
        · exfalso
          rcases hcond with ⟨ch, hch, hph⟩ | hall
          · cases Option.some.inj hch; exact absurd hph (by decide)
          · exact absurd (hall 'C' rfl) (by decide)
        · exfalso
          rcases hcond with ⟨ch, hch, hph⟩ | hall
          · cases Option.some.inj hch; exact absurd hph (by decide)
          · exact absurd (hall '#' rfl) (by decide)
        · exfalso
          rcases hcond with ⟨ch, hch, hph⟩ | hall
          · cases Option.some.inj hch; exact absurd hph (by decide)
          · exact absurd (hall '#' rfl) (by decide)
        · -- j = 8
          have e8 : (a :: '#' :: '#' :: 'D' :: 'E' :: 'C' :: '#' :: '#' :: c :: protect r).drop 8
              = c :: protect r := rfl
          rw [e8, restore_cons_head c _ (digit_ne c hcdig).1]
          simp only [List.length_cons]
          omega
      · by_cases hj9 : j = 9
        · subst hj9
          have e9 : (a :: '#' :: '#' :: 'D' :: 'E' :: 'C' :: '#' :: '#' :: c :: protect r).drop 9
              = protect r := rfl
          rw [e9]
          simp only [List.length_cons]
          omega
        · -- j ≥ 10
          obtain ⟨j0, rfl⟩ : ∃ j0, j = j0 + 10 := ⟨j - 10, by omega⟩
          have ed : (a :: '#' :: '#' :: 'D' :: 'E' :: 'C' :: '#' :: '#' :: c :: protect r).drop (j0 + 10)
              = (protect r).drop (j0 + 1) := rfl
          have eg1 : (a :: '#' :: '#' :: 'D' :: 'E' :: 'C' :: '#' :: '#' :: c :: protect r).get? (j0 + 10 - 1)
              = (protect r).get? j0 := rfl
          have eg2 : (a :: '#' :: '#' :: 'D' :: 'E' :: 'C' :: '#' :: '#' :: c :: protect r).get? (j0 + 10)
              = (protect r).get? (j0 + 1) := rfl
          rw [ed]
          have hrec := ih r (j0 + 1) (by simp only [List.length_cons] at hb; omega) (by omega) (by omega) ?_
          · simp only [List.length_cons]; omega
          · rcases hcond with ⟨ch, hch, hph⟩ | hall
            · exact Or.inl ⟨ch, by rw [Nat.add_sub_cancel, ← eg1]; exact hch, hph⟩
            · exact Or.inr fun ch hch => hall ch (by rw [eg2]; exact hch)
    · rw [hpr] at hjle hcond ⊢
      simp only [List.length_cons] at hjle hb ⊢
      obtain ⟨j1, rfl⟩ : ∃ j1, j = j1 + 1 := ⟨j - 1, by omega⟩
      have ed : (a :: protect t).drop (j1 + 1) = (protect t).drop j1 := rfl
      rw [ed]
      by_cases hj1 : j1 = 0
      · subst hj1
        have := restore_protect_le t.length t le_rfl
        simp only [List.drop_zero]
        omega
      · obtain ⟨j2, rfl⟩ : ∃ j2, j1 = j2 + 1 := ⟨j1 - 1, by omega⟩
        have eg1 : (a :: protect t).get? (j2 + 1 + 1 - 1) = (protect t).get? j2 := rfl
        have eg2 : (a :: protect t).get? (j2 + 1 + 1) = (protect t).get? (j2 + 1) := rfl
        have hrec := ih t (j2 + 1) (by omega) (by omega) (by omega) ?_
        · omega
        · rcases hcond with ⟨ch, hch, hph⟩ | hall
          · exact Or.inl ⟨ch, by rw [Nat.add_sub_cancel, ← eg1]; exact hch, hph⟩
          · exact Or.inr fun ch hch => hall ch (by rw [eg2]; exact hch)

lemma hard_cut :
    ∀ (n : Nat) (b : List Char) (j : Nat), b.length ≤ n → j ≤ (protect b).length →
      3 * (restore ((protect b).drop j)).length + j ≤ 3 * b.length + 18 := by
  intro n
  induction n with
  | zero =>
    intro b j hb hjle
    have hbe : b = [] := List.length_eq_zero.mp (Nat.le_zero.mp hb)
    subst hbe
    simp [protect] at hjle
    subst hjle
    simp [protect, restore]
  | succ n ih =>
    intro b j hb hjle
    by_cases hj0 : j = 0
    · subst hj0
      have := restore_protect_le b.length b le_rfl
      simp only [List.drop_zero]
      omega
    · rcases protect_cases b with rfl | ⟨a, p, c, r, rfl, hdig, hpr⟩ | ⟨a, t, rfl, hpr⟩
      · simp [protect] at hjle
        omega
      · simp only [Bool.and_eq_true, beq_iff_eq] at hdig
        obtain ⟨⟨ha, hpdot⟩, hcdig⟩ := hdig
        have hRr := restore_protect_le r.length r le_rfl
        rw [hpr] at hjle ⊢
        simp only [List.length_cons] at hjle ⊢
        by_cases hj1 : j = 1
        · subst hj1
          have e1 : (a :: '#' :: '#' :: 'D' :: 'E' :: 'C' :: '#' :: '#' :: c :: protect r).drop 1
              = '#' :: '#' :: 'D' :: 'E' :: 'C' :: '#' :: '#' :: c :: protect r := rfl
          rw [e1, restore_ph, restore_cons_head c _ (digit_ne c hcdig).1]
          simp only [List.length_cons]
          omega
        · by_cases hj8 : j ≤ 8
          · -- 2 ≤ j ≤ 8 : the cut lands inside (or right after) the inserted
            -- placeholder; use `restore_phtail` on the remaining tail.
            obtain ⟨j2, rfl⟩ : ∃ j2, j = j2 + 2 := ⟨j - 2, by omega⟩
            have ed : (a :: '#' :: '#' :: 'D' :: 'E' :: 'C' :: '#' :: '#' :: c :: protect r).drop (j2 + 2)
                = PHl.drop (j2 + 1) ++ c :: protect r := by
              have h77 : j2 + 1 ≤ 7 := by omega
              have : PHl.drop (j2 + 1) = List.drop (j2 + 1) PHl := rfl
              simp only [PHl]
              match j2, h77 with
              | 0, _ => rfl
              | 1, _ => rfl
              | 2, _ => rfl
              | 3, _ => rfl
              | 4, _ => rfl
              | 5, _ => rfl
              | 6, _ => rfl
            rw [ed, restore_phtail c hcdig (protect r) (j2 + 1) (by omega) (by omega)]
            have hdroplen : (PHl.drop (j2 + 1)).length = 7 - (j2 + 1) := by
              simp [PHl]
            simp only [List.length_append, List.length_cons, hdroplen]
            omega
          · by_cases hj9 : j = 9
            · subst hj9
              have e9 : (a :: '#' :: '#' :: 'D' :: 'E' :: 'C' :: '#' :: '#' :: c :: protect r).drop 9
                  = protect r := rfl
              rw [e9]
              omega
            · obtain ⟨j0, rfl⟩ : ∃ j0, j = j0 + 10 := ⟨j - 10, by omega⟩
              have ed : (a :: '#' :: '#' :: 'D' :: 'E' :: 'C' :: '#' :: '#' :: c :: protect r).drop (j0 + 10)
                  = (protect r).drop (j0 + 1) := rfl
              rw [ed]
              have hrec := ih r (j0 + 1) (by simp only [List.length_cons] at hb; omega) (by omega)
              omega
      · rw [hpr] at hjle ⊢
        simp only [List.length_cons] at hjle hb ⊢
        obtain ⟨j1, rfl⟩ : ∃ j1, j = j1 + 1 := ⟨j - 1, by omega⟩
        have ed : (a :: protect t).drop (j1 + 1) = (protect t).drop j1 := rfl
        rw [ed]
        have hrec := ih t j1 (by omega) (by omega)
        omega

lemma length_dropWhile_le_local (p : Char → Bool) :
    ∀ l : List Char, (l.dropWhile p).length ≤ l.length := by
  intro l
  induction l with
  | nil => simp
  | cons c t ih =>
    by_cases hc : p c = true
    · rw [List.dropWhile_cons_of_pos hc]
      simp only [List.length_cons]
      omega
    · rw [List.dropWhile_cons_of_neg (by simpa using hc)]

lemma strip_length_le (l : List Char) : (strip l).length ≤ l.length := by
  unfold strip
  calc ((l.dropWhile isWs).reverse.dropWhile isWs).reverse.length
      = ((l.dropWhile isWs).reverse.dropWhile isWs).length := List.length_reverse _
    _ ≤ (l.dropWhile isWs).reverse.length := length_dropWhile_le_local _ _
    _ = (l.dropWhile isWs).length := List.length_reverse _
    _ ≤ l.length := length_dropWhile_le_local _ _

lemma firstIdxP_some (p : Char → Bool) :
    ∀ (l : List Char) (i : Nat), firstIdxP p l = some i →
      i < l.length ∧ (∃ ch, l.get? i = some ch ∧ p ch = true) ∧
        (∀ j ch, j < i → l.get? j = some ch → p ch = false) := by
  intro l
  induction l with
  | nil => intro i h; simp [firstIdxP] at h
  | cons c t ih =>
    intro i h
    simp only [firstIdxP] at h
    by_cases hc : p c = true
    · rw [if_pos hc] at h
      cases Option.some.inj h
      exact ⟨by simp, ⟨c, rfl, hc⟩, fun j ch hj => by omega⟩
    · rw [if_neg hc] at h
      rcases Option.map_eq_some'.mp h with ⟨i0, hi0, rfl⟩
      obtain ⟨hlen, ⟨ch, hch, hp⟩, hbefore⟩ := ih i0 hi0
      refine ⟨by simp; omega, ⟨ch, hch, hp⟩, ?_⟩
      intro j ch2 hj hch2
      match j, hch2 with
      | 0, hch2 =>
        cases Option.some.inj hch2
        exact Bool.not_eq_true _ ▸ (by simpa using hc)
      | j + 1, hch2 => exact hbefore j ch2 (by omega) hch2

lemma firstIdxP_none_iff (p : Char → Bool) :
    ∀ l : List Char, (firstIdxP p l = none ↔ ∀ ch ∈ l, p ch = false) := by
  intro l
  induction l with
  | nil => simp [firstIdxP]
  | cons c t ih =>
    simp only [firstIdxP, List.mem_cons]
    by_cases hc : p c = true
    · simp [hc]
    · rw [if_neg hc]
      simp only [Option.map_eq_none']
      constructor
      · intro h ch hch
        rcases hch with rfl | hch
        · exact Bool.not_eq_true _ ▸ (by simpa using hc)
        · exact (ih.mp h) ch hch
      · intro h
        exact ih.mpr fun ch hch => h ch (Or.inr hch)

lemma lastIdxP_none (p : Char → Bool) :
    ∀ l : List Char, lastIdxP p l = none → ∀ ch ∈ l, p ch = false := by
  intro l
  induction l with
  | nil => intro _ ch hch; cases hch
  | cons c t ih =>
    intro h ch hch
    simp only [lastIdxP] at h
    cases ht : lastIdxP p t with
    | some i0 => rw [ht] at h; cases h
    | none =>
      rw [ht] at h
      by_cases hc : p c = true
      · rw [if_pos hc] at h; cases h
      · rcases List.mem_cons.mp hch with rfl | hch2
        · cases hpc : p ch
          · rfl
          · exact absurd hpc hc
        · exact ih ht ch hch2

lemma lastIdxP_some (p : Char → Bool) :
    ∀ (l : List Char) (i : Nat), lastIdxP p l = some i →
      i < l.length ∧ (∃ ch, l.get? i = some ch ∧ p ch = true) ∧
        (∀ j ch, i < j → l.get? j = some ch → p ch = false) := by
  intro l
  induction l with
  | nil => intro i h; simp [lastIdxP] at h
  | cons c t ih =>
    intro i h
    simp only [lastIdxP] at h
    cases ht : lastIdxP p t with
    | some i0 =>
      rw [ht] at h
      cases Option.some.inj h
      obtain ⟨hlen, ⟨ch, hch, hp⟩, hafter⟩ := ih i0 ht
      refine ⟨by simp; omega, ⟨ch, hch, hp⟩, ?_⟩
      intro j ch2 hj hch2
      match j, hch2 with
      | j + 1, hch2 => exact hafter j ch2 (by omega) hch2
    | none =>
      rw [ht] at h
      by_cases hc : p c = true
      · rw [if_pos hc] at h
        cases Option.some.inj h
        refine ⟨by simp, ⟨c, rfl, hc⟩, ?_⟩
        intro j ch2 hj hch2
        match j, hch2 with
        | j + 1, hch2 =>
          have hch2t : t.get? j = some ch2 := hch2
          have hmem : ch2 ∈ t := List.get?_mem hch2t
          exact lastIdxP_none p t ht ch2 hmem
      · rw [if_neg hc] at h
        cases h

lemma isTerm_not_phChar (ch : Char) (h : isTerm ch = true) : phChar ch = false := by
  simp only [isTerm, Bool.or_eq_true, beq_iff_eq] at h
  rcases h with (rfl | rfl) | rfl <;> decide

lemma find_sentence_nil : find_sentence [] = ([], []) := rfl

lemma find_sentence_term (b : List Char) (hb : b ≠ []) (idx : Nat)
    (h : firstIdxP isTerm (protect b) = some idx) :
    find_sentence b = (strip (restore ((protect b).take (idx + 1))),
      strip (restore ((protect b).drop (idx + 1)))) := by
  simp only [find_sentence, if_neg hb, h]

lemma find_sentence_space (b : List Char) (hb : b ≠ [])
    (hterm : firstIdxP isTerm (protect b) = none)
    (hlong : max_chars < (protect b).length) (i : Nat)
    (hsp : lastIdxP (fun c => c == ' ') ((protect b).take (max_chars + 20)) = some i)
    (hi : 0 < i) :
    find_sentence b = (strip (restore ((protect b).take i)),
      strip (restore ((protect b).drop i))) := by
  simp only [find_sentence, if_neg hb, hterm, if_pos hlong, hsp, if_pos hi]

lemma find_sentence_hard (b : List Char) (hb : b ≠ [])
    (hterm : firstIdxP isTerm (protect b) = none)
    (hlong : max_chars < (protect b).length)
    (hsp : ∀ i, lastIdxP (fun c => c == ' ') ((protect b).take (max_chars + 20)) = some i → i = 0) :
    find_sentence b = (strip (restore ((protect b).take max_chars)),
      strip (restore ((protect b).drop max_chars))) := by
  simp only [find_sentence, if_neg hb, hterm, if_pos hlong]
  cases hsp2 : lastIdxP (fun c => c == ' ') ((protect b).take (max_chars + 20)) with
  | none => simp
  | some i =>
    have hi0 := hsp i hsp2
    subst hi0
    simp

lemma find_sentence_short (b : List Char) (hb : b ≠ [])
    (hterm : firstIdxP isTerm (protect b) = none)
    (hshort : ¬ max_chars < (protect b).length) :
    find_sentence b = ([], b) := by
  simp only [find_sentence, if_neg hb, hterm, if_neg hshort]

lemma find_sentence_rest_lt (b : List Char) (h : (find_sentence b).1 ≠ []) :
    (find_sentence b).2.length < b.length := by
  by_cases hb : b = []
  · subst hb
    exact absurd rfl h
  · have hb1 : 1 ≤ b.length := by
      cases b with
      | nil => exact absurd rfl hb
      | cons x t => simp
    cases hterm : firstIdxP isTerm (protect b) with
    | some idx =>
      rw [find_sentence_term b hb idx hterm]
      obtain ⟨hlen, ⟨ch, hch, hp⟩, -⟩ := firstIdxP_some isTerm (protect b) idx hterm
      have hcut := clean_cut b.length b (idx + 1) le_rfl (by omega) (by omega)
        (Or.inl ⟨ch, by simpa using hch, isTerm_not_phChar ch hp⟩)
      have hstrip := strip_length_le (restore ((protect b).drop (idx + 1)))
      simp only []
      omega
    | none =>
      by_cases hlong : max_chars < (protect b).length
      · cases hsp : lastIdxP (fun c => c == ' ') ((protect b).take (max_chars + 20)) with
        | some i =>
          by_cases hi : 0 < i
          · rw [find_sentence_space b hb hterm hlong i hsp hi]
            obtain ⟨hlen, ⟨ch, hch, hp⟩, -⟩ :=
              lastIdxP_some (fun c => c == ' ') ((protect b).take (max_chars + 20)) i hsp
            have hi220 : i < max_chars + 20 := by
              rw [List.length_take] at hlen
              omega
            have hchb : (protect b).get? i = some ch := by
              rw [← List.get?_take hi220]
              exact hch
            have hile : i ≤ (protect b).length := by
              rw [List.length_take] at hlen
              omega
            have hsp2 : phChar ch = false := by
              have hsp3 : ch = ' ' := by simpa using hp
              subst hsp3
              decide
            have hcut := clean_cut b.length b i le_rfl hi hile
              (Or.inr fun ch2 hch2 => by
                rw [hchb] at hch2
                cases Option.some.inj hch2
                exact hsp2)
            have hstrip := strip_length_le (restore ((protect b).drop i))
            simp only []
            omega
          · have hi0 : i = 0 := by omega
            subst hi0
            rw [find_sentence_hard b hb hterm hlong
              (fun k hk => by rw [hsp] at hk; exact (Option.some.inj hk).symm)]
            have hcut := hard_cut b.length b max_chars le_rfl (by omega)
            have hstrip := strip_length_le (restore ((protect b).drop max_chars))
            simp only [max_chars] at hcut hlong hstrip ⊢
            omega
        | none =>
          rw [find_sentence_hard b hb hterm hlong
            (fun k hk => by rw [hsp] at hk; cases hk)]
          have hcut := hard_cut b.length b max_chars le_rfl (by omega)
          have hstrip := strip_length_le (restore ((protect b).drop max_chars))
          simp only [max_chars] at hcut hlong hstrip ⊢
          omega
      · rw [find_sentence_short b hb hterm hlong] at h
        exact absurd rfl h

lemma extractLoopF_stable :
    ∀ (n : Nat) (b : List Char), b.length ≤ n →
      ∀ fuel : Nat, b.length < fuel → extractLoopF fuel b = extractLoop b := by
  intro n
  induction n with
  | zero =>
    intro b hb fuel hfuel
    have hbe : b = [] := List.length_eq_zero.mp (Nat.le_zero.mp hb)
    subst hbe
    obtain ⟨f0, rfl⟩ : ∃ f0, fuel = f0 + 1 := ⟨fuel - 1, by omega⟩
    simp [extractLoop, extractLoopF, find_sentence]
  | succ n ih =>
    intro b hb fuel hfuel
    obtain ⟨f0, rfl⟩ : ∃ f0, fuel = f0 + 1 := ⟨fuel - 1, by omega⟩
    unfold extractLoop
    by_cases hfs : (find_sentence b).1 = []
    · simp [extractLoopF, hfs]
    · have hlt := find_sentence_rest_lt b hfs
      simp only [extractLoopF, if_neg hfs]
      have h1 : extractLoopF f0 (find_sentence b).2 = extractLoop (find_sentence b).2 :=
        ih (find_sentence b).2 (by omega) f0 (by omega)
      have h2 : extractLoopF b.length (find_sentence b).2 = extractLoop (find_sentence b).2 :=
        ih (find_sentence b).2 (by omega) b.length (by omega)
      rw [h1, h2]

/- ### Facts about the segmentation of the decimal-point example text -/

lemma textC_len : textC.length = 33 := by decide

lemma extractLoop_nosentence (b : List Char) (h : (find_sentence b).1 = []) :
    extractLoop b = ([], b) := by
  simp [extractLoop, extractLoopF, h]

set_option maxRecDepth 10000 in
lemma textC_prefix_nosentence :
    ∀ p ∈ List.range 33, p ≠ 15 → p ≠ 24 →
      extractLoop (textC.take p) = ([], textC.take p) := by decide

set_option maxRecDepth 10000 in
lemma textC_full_extract : extractLoop textC = ([textC], []) := by decide

lemma textC_take33 : textC.take 33 = textC := by decide

lemma textC_drop33 : textC.drop 33 = [] := by decide

lemma gen_aux :
    ∀ (chunks : List (List Char)) (p : Nat) (out0 : List (List Char)),
      p ≤ 33 → p ≠ 15 → p ≠ 24 →
      chunks.flatten = textC.drop p →
      (∀ q ∈ chunkSums p chunks, q ≠ 15 ∧ q ≠ 24) →
      flushGen (chunks.foldl feedChunk
        (if p = 33 then ⟨[], out0 ++ [textC]⟩ else ⟨textC.take p, out0⟩)) = out0 ++ [textC] := by
  intro chunks
  induction chunks with
  | nil =>
    intro p out0 hp h15 h24 hjoin hsums
    have hp33 : p = 33 := by
      have hl := congrArg List.length hjoin
      simp only [List.flatten_nil, List.length_nil, List.length_drop, textC_len] at hl
      omega
    rw [if_pos hp33, List.foldl_nil]
    simp [flushGen, strip]
  | cons ch rest ih =>
    intro p out0 hp h15 h24 hjoin hsums
    have hhead : p + ch.length ≠ 15 ∧ p + ch.length ≠ 24 :=
      hsums (p + ch.length) (by simp [chunkSums])
    have hrest_sums : ∀ q ∈ chunkSums (p + ch.length) rest, q ≠ 15 ∧ q ≠ 24 := by
      intro q hq
      exact hsums q (by simp [chunkSums, hq])
    simp only [List.flatten_cons] at hjoin
    have hch : ch = (textC.drop p).take ch.length := by
      rw [← hjoin, List.take_left]
    have hrest : rest.flatten = textC.drop (p + ch.length) := by
      have h1 : rest.flatten = (textC.drop p).drop ch.length := by
        rw [← hjoin, List.drop_left]
      rw [h1, List.drop_drop]
    have hlenle : p + ch.length ≤ 33 := by
      have hl := congrArg List.length hjoin
      simp only [List.length_append, List.length_drop, textC_len] at hl
      omega
    by_cases hp33 : p = 33
    · have hchnil : ch = [] := by
        rw [hp33, textC_drop33] at hch
        simpa using hch
      subst hchnil
      rw [if_pos hp33, List.foldl_cons]
      have hfeed : feedChunk ⟨[], out0 ++ [textC]⟩ [] = ⟨[], out0 ++ [textC]⟩ := by
        simp [feedChunk, extractLoop_nosentence [] rfl]
      rw [hfeed]
      have hres := ih 33 out0 (by omega) (by omega) (by omega)
        (by rw [hrest, hp33]; simp) (by rw [← hp33]; simpa using hrest_sums)
      rw [if_pos rfl] at hres
      exact hres
    · have hplt : p < 33 := by omega
      simp only [if_neg hp33, List.foldl_cons]
      have hbuf : textC.take p ++ ch = textC.take (p + ch.length) := by
        rw [List.take_add]
        congr 1
      by_cases hp33' : p + ch.length = 33
      · have hfeed : feedChunk ⟨textC.take p, out0⟩ ch = ⟨[], out0 ++ [textC]⟩ := by
          simp only [feedChunk, hbuf, hp33', textC_take33, textC_full_extract]
        rw [hfeed]
        have := ih 33 out0 (by omega) (by omega) (by omega)
          (by rw [hrest, hp33', textC_drop33]) (by rw [← hp33']; exact hrest_sums)
        simpa using this
      · have hfeed : feedChunk ⟨textC.take p, out0⟩ ch =
            ⟨textC.take (p + ch.length), out0⟩ := by
          have hnos := textC_prefix_nosentence (p + ch.length)
            (by simp [List.mem_range]; omega) hhead.1 hhead.2
          simp only [feedChunk, hbuf, hnos]
          simp
        rw [hfeed]
        have hres := ih (p + ch.length) out0 (by omega) hhead.1 hhead.2 hrest hrest_sums
        rw [if_neg hp33'] at hres
        exact hres

lemma restore_of_no_hash : ∀ l : List Char, (∀ ch ∈ l, ch ≠ '#') → restore l = l := by
  intro l
  induction l with
  | nil => intro _; rfl
  | cons x m ih =>
    intro h
    rw [restore_cons_head x m (h x (List.mem_cons_self _ _))]
    rw [ih fun ch hch => h ch (List.mem_cons_of_mem _ hch)]

lemma find_sentence_forced (b : List Char) (hb : b ≠ [])
    (hterm : firstIdxP isTerm (protect b) = none)
    (hlong : max_chars < (protect b).length) :
    find_sentence b = (strip (restore ((protect b).take (forcedIdx b))),
      strip (restore ((protect b).drop (forcedIdx b)))) := by
  cases hsp : lastIdxP (fun c => c == ' ') ((protect b).take (max_chars + 20)) with
  | some i =>
    have hidx : forcedIdx b = if 0 < i then i else max_chars := by
      unfold forcedIdx
      rw [hsp]
    rw [hidx]
    by_cases hi : 0 < i
    · rw [if_pos hi]
      exact find_sentence_space b hb hterm hlong i hsp hi
    · rw [if_neg hi]
      refine find_sentence_hard b hb hterm hlong fun k hk => ?_
      rw [hsp] at hk
      cases Option.some.inj hk
      omega
  | none =>
    have hidx : forcedIdx b = max_chars := by
      unfold forcedIdx
      rw [hsp]
    rw [hidx]
    refine find_sentence_hard b hb hterm hlong fun k hk => ?_
    rw [hsp] at hk
    cases hk

lemma process_all_text_empty_of_none (o : Oracle) (c : Codec)
    (h : ∀ i s, synthFrame o c i s = none) :
    ∀ (l : List (List Char)) (i : Nat), process_all_text o c i l = [] := by
  intro l
  induction l with
  | nil => intro i; rfl
  | cons s rest ih =>
    intro i
    simp only [process_all_text, h i s]
    exact ih (i + 1)

lemma outstanding_le_one :
    ∀ (idxs : List Nat) (k : Nat), outstandingAfter ((eventsOf idxs).take k) ≤ 1 := by
  intro idxs
  induction idxs with
  | nil => intro k; simp [eventsOf, outstandingAfter]
  | cons i rest ih =>
    intro k
    match k with
    | 0 => simp [outstandingAfter]
    | 1 => simp [eventsOf, outstandingAfter, List.foldl]
    | k + 2 =>
      have : (eventsOf (i :: rest)).take (k + 2) =
          SynthEv.start i :: SynthEv.finish i :: (eventsOf rest).take k := by
        simp [eventsOf]
      rw [this]
      simpa [outstandingAfter, List.foldl] using ih k

/- ### Claim theorems -/

/-- C1: for every input text stream (given as chunks), every window size
`W ≥ 1` and every pattern of per-sentence synthesis success or failure, the
pipeline of `_process_all_text` yields exactly the trimmed audio frames of
the non-dropped sentences, in strictly increasing sentence sequence order,
and, the loop being sequential (each synthesis is awaited before the next is
started), at no point is more than one — hence more than `W` — synthesis
operation outstanding. -/
theorem c1_scheduler_window (W : Nat) (hW : 1 ≤ W) (o : Oracle) (c : Codec)
    (chunks : List (List Char)) :
    process_all_text o c 0 (sentence_generator chunks) =
        (processFrom o c 0 (sentence_generator chunks)).map Prod.snd ∧
    (processFrom o c 0 (sentence_generator chunks)).Pairwise (fun x y => x.1 < y.1) ∧
    (∀ i t, ((i, t) ∈ processFrom o c 0 (sentence_generator chunks) ↔
        ∃ s, (sentence_generator chunks).get? i = some s ∧ synthFrame o c i s = some t)) ∧
    (∀ k, outstandingAfter
        ((eventsOf (List.range (sentence_generator chunks).length)).take k) ≤ W) := by
  refine ⟨process_all_text_eq_map o c _ 0, processFrom_pairwise o c _ 0, ?_, ?_⟩
  · intro i t
    have h := processFrom_mem_iff o c (sentence_generator chunks) 0 i t
    simpa using h
  · intro k
    exact le_trans (outstanding_le_one _ k) hW

/-- Witness for C1 at `W := 1` and the one-chunk stream of `hiC`. -/
theorem c1_scheduler_window_witness :
    1 ≤ 1 ∧
    (∀ k, outstandingAfter
        ((eventsOf (List.range (sentence_generator [hiC]).length)).take k) ≤ 1) :=
  ⟨le_rfl, (c1_scheduler_window 1 le_rfl failOracle toyCodec [hiC]).2.2.2⟩

/-- C2 counterexample: on the one-sentence stream `["Hi."]` whose synthesis
fails, `async_process_stream` delivers zero frames, so no container header
is the first frame and no header is emitted at all — the claim that the
first frame is always a header, even when every sentence fails, is false. -/
theorem c2_counterexample :
    async_process_stream failOracle toyCodec [hiC] = [] := by decide

/-- C2 amended: `async_process_stream` emits no container header: every
frame it delivers is the post-trim audio payload of some segmented sentence,
and if every sentence is dropped it delivers zero frames. -/
theorem c2_no_header (o : Oracle) (c : Codec) (chunks : List (List Char)) :
    (∀ f ∈ async_process_stream o c chunks, ∃ i s,
        (sentence_generator chunks).get? i = some s ∧ synthFrame o c i s = some f) ∧
    ((∀ i s, synthFrame o c i s = none) → async_process_stream o c chunks = []) := by
  constructor
  · intro f hf
    rw [async_process_stream, process_all_text_eq_map o c _ 0] at hf
    rcases List.mem_map.mp hf with ⟨⟨i, t⟩, hmem, ht⟩
    rcases (processFrom_mem_iff o c (sentence_generator chunks) 0 i t).mp hmem
      with ⟨s, hget, -, hframe⟩
    exact ⟨i, s, by simpa using hget, by rw [hframe]; exact congrArg some ht⟩
  · intro h
    exact process_all_text_empty_of_none o c h (sentence_generator chunks) 0

/-- Witness for C2 amended on a concrete all-failing stream. -/
theorem c2_no_header_witness :
    (∀ i s, synthFrame failOracle toyCodec i s = none) ∧
    async_process_stream failOracle toyCodec [hiC] = [] := by
  have hall : ∀ i s, synthFrame failOracle toyCodec i s = none := by
    intro i s
    simp [synthFrame, synthesize_and_stream, failOracle]
  exact ⟨hall, (c2_no_header failOracle toyCodec [hiC]).2 hall⟩

/-- C3 counterexample: on the forced-split buffer of 100 letters, a space
and 100 letters (201 characters, no terminator), concatenating the returned
sentence and remainder does not reproduce the pre-split buffer: the space at
the split boundary is removed by the whitespace trimming. -/
theorem c3_counterexample :
    firstIdxP isTerm (protect cexC3) = none ∧
    max_chars < (protect cexC3).length ∧
    (find_sentence cexC3).1 ≠ [] ∧
    (find_sentence cexC3).1 ++ (find_sentence cexC3).2 ≠ cexC3 := by decide

/-- C3 amended: on the forced-split path, for a buffer that protection
leaves unchanged and that contains no placeholder character, the returned
parts are exactly the two halves of the buffer at the forced split offset
with leading and trailing whitespace removed; the two untrimmed halves
reproduce the buffer exactly, so only whitespace at the split boundary and
the buffer ends can be dropped and no character is altered. -/
theorem c3_amended (b : List Char) (hhash : ∀ ch ∈ b, ch ≠ '#')
    (hid : protect b = b)
    (hterm : ∀ ch ∈ b, isTerm ch = false)
    (hlong : max_chars < b.length) :
    find_sentence b = (strip (b.take (forcedIdx b)), strip (b.drop (forcedIdx b))) ∧
    b.take (forcedIdx b) ++ b.drop (forcedIdx b) = b := by
  have hb : b ≠ [] := by
    intro he
    subst he
    simp [max_chars] at hlong
  have hterm2 : firstIdxP isTerm (protect b) = none := by
    rw [hid]
    exact (firstIdxP_none_iff isTerm b).mpr hterm
  have heq := find_sentence_forced b hb hterm2 (by rw [hid]; exact hlong)
  rw [hid] at heq
  constructor
  · rw [heq]
    rw [restore_of_no_hash (b.take (forcedIdx b))
      fun ch hch => hhash ch (List.take_subset _ _ hch)]
    rw [restore_of_no_hash (b.drop (forcedIdx b))
      fun ch hch => hhash ch (List.drop_subset _ _ hch)]
  · exact List.take_append_drop _ b

/-- Witness for C3 amended on the concrete forced-split buffer `cexC3`. -/
theorem c3_amended_witness :
    (∀ ch ∈ cexC3, ch ≠ '#') ∧
    find_sentence cexC3 =
      (strip (cexC3.take (forcedIdx cexC3)), strip (cexC3.drop (forcedIdx cexC3))) :=
  ⟨by decide,
    (c3_amended cexC3 (by decide) (by decide) (by decide) (by decide)).1⟩

/-- C4 counterexample: a synthesis stream that yields one audio chunk and
then raises is not dropped — the partial audio is kept and contributes an
output frame, refuting the claim that a sentence whose synthesis raises an
error contributes no output frame. -/
theorem c4_counterexample :
    (partialErrOracle 0 hiC).2 = true ∧
    process_all_text partialErrOracle toyCodec 0 [hiC] = [[5]] := by decide

/-- C4 amended: a sentence whose synthesis accumulates zero audio bytes (in
particular one that errors before yielding any audio) is dropped, and each
sentence contributes its own frames independently — a failing sentence
contributes nothing while processing continues with the subsequent
sentences, and no per-sentence failure aborts the stream; a sentence whose
synthesis errors after yielding some audio contributes its partial audio. -/
theorem c4_amended (o : Oracle) (c : Codec) :
    (∀ i s, synthesize_and_stream o i s = [] → synthFrame o c i s = none) ∧
    (∀ (pre : List (List Char)) (s : List Char) (post : List (List Char)) (j : Nat),
      process_all_text o c j (pre ++ s :: post) =
        process_all_text o c j pre ++
          (match synthFrame o c (j + pre.length) s with
            | none => [] | some t => [t]) ++
          process_all_text o c (j + pre.length + 1) post) := by
  constructor
  · intro i s h
    simp [synthFrame, h]
  · intro pre s post j
    rw [process_all_text_append o c pre (s :: post) j]
    cases h : synthFrame o c (j + pre.length) s with
    | none => simp [process_all_text, h]
    | some t => simp [process_all_text, h]

/-- Witness for C4 amended: empty synthesis output is dropped. -/
theorem c4_amended_witness :
    synthesize_and_stream failOracle 0 hiC = [] ∧
    synthFrame failOracle toyCodec 0 hiC = none :=
  ⟨by decide, (c4_amended failOracle toyCodec).1 0 hiC (by decide)⟩

/-- C5: for a lawful codec, `_trim_end_of_audio` returns the input bytes
byte-identical when the decoded duration is at most `TRIM_MS_FROM_END`, a
clip whose decoded duration is exactly `TRIM_MS_FROM_END` shorter when it
exceeds the threshold, and the original bytes when decoding fails. -/
theorem c5_trim_end (c : Codec)
    (hlaw : ∀ n, c.decode (c.encodeDuration n) = some n) (data : List Nat) :
    (∀ d, c.decode data = some d → d ≤ TRIM_MS_FROM_END → trim_end c data = data) ∧
    (∀ d, c.decode data = some d → TRIM_MS_FROM_END < d →
      c.decode (trim_end c data) = some (d - TRIM_MS_FROM_END)) ∧
    (c.decode data = none → trim_end c data = data) := by
  refine ⟨?_, ?_, ?_⟩
  · intro d hd hle
    simp [trim_end, hd, hle]
  · intro d hd hlt
    simp only [trim_end, hd]
    rw [if_neg (by omega)]
    exact hlaw (d - TRIM_MS_FROM_END)
  · intro hd
    simp [trim_end, hd]

/-- Witness for C5 with the concrete lawful codec `toyCodec` and a clip of
decoded duration 1000 ms, trimmed to 250 ms. -/
theorem c5_trim_end_witness :
    (∀ n, toyCodec.decode (toyCodec.encodeDuration n) = some n) ∧
    toyCodec.decode (trim_end toyCodec (List.replicate 1000 0)) = some 250 := by
  have hlaw : ∀ n, toyCodec.decode (toyCodec.encodeDuration n) = some n := by
    intro n
    simp [toyCodec]
  refine ⟨hlaw, ?_⟩
  have h := (c5_trim_end toyCodec hlaw (List.replicate 1000 0)).2.1 1000
    (by simp [toyCodec]) (by decide)
  simpa using h

/-- C6 counterexample: the chunking of the example text that cuts right
after the decimal point of 3.14 yields two sentences, the first ending at
`"3."` — not one sentence ending at `"done."`. -/
theorem c6_counterexample :
    chunk1C ++ chunk2C = textC ∧
    sentence_generator [chunk1C, chunk2C] = [chunk1C, chunk2C] := by decide

/-- C6 amended: segmenting the text `"The value is 3.14 and 2.71, done."`
yields exactly one sentence — the whole text, ending at `"done."` — for
every split of it into chunks in which no chunk boundary falls immediately
after a decimal point (cumulative offsets 15 and 24, the positions right
after the periods of 3.14 and 2.71); in particular for the one-chunk
delivery. -/
theorem c6_amended (chunks : List (List Char))
    (hjoin : chunks.flatten = textC)
    (hcuts : ∀ q ∈ chunkSums 0 chunks, q ≠ 15 ∧ q ≠ 24) :
    sentence_generator chunks = [textC] := by
  have h := gen_aux chunks 0 [] (by omega) (by omega) (by omega)
    (by simpa using hjoin) hcuts
  rw [if_neg (by omega)] at h
  simpa [sentence_generator] using h

/-- Witness for C6 amended on the chunking that cuts between the digits 1
and 4 of 3.14. -/
theorem c6_amended_witness :
    [chunk1good, chunk2good].flatten = textC ∧
    sentence_generator [chunk1good, chunk2good] = [textC] :=
  ⟨by decide, c6_amended [chunk1good, chunk2good] (by decide) (by decide)⟩

/-- C7 counterexample: the buffer whose only whitespace is a space at index
0 (221 characters, no terminator) contains whitespace in the search range,
yet `_find_sentence` hard-splits at offset 200 instead of splitting at that
whitespace — refuting the claimed equivalence "hard split iff no whitespace
in range". -/
theorem c7_counterexample :
    firstIdxP isTerm (protect cexC7) = none ∧
    max_chars < (protect cexC7).length ∧
    (' ' ∈ (protect cexC7).take (max_chars + 20)) ∧
    find_sentence cexC7 =
      (strip (restore ((protect cexC7).take max_chars)),
        strip (restore ((protect cexC7).drop max_chars))) ∧
    find_sentence cexC7 = (List.replicate 199 'a', List.replicate 21 'a') := by decide

/-- C7 amended: for a terminator-free protected buffer longer than
`max_chars`, `_find_sentence` splits at the last space character occurring
at a positive index within the first `max_chars + 20` protected characters;
if and only if no space occurs at a positive index in that range does it
hard-split at exactly offset `max_chars` (a space at index 0, or whitespace
other than the space character, does not prevent the hard split). -/
theorem c7_amended (b : List Char)
    (hterm : ∀ ch ∈ protect b, isTerm ch = false)
    (hlong : max_chars < (protect b).length) :
    (∀ i, lastIdxP (fun c => c == ' ') ((protect b).take (max_chars + 20)) = some i →
      0 < i →
        (find_sentence b =
            (strip (restore ((protect b).take i)), strip (restore ((protect b).drop i))) ∧
          ((protect b).take (max_chars + 20)).get? i = some ' ' ∧
          (∀ j ch, i < j → ((protect b).take (max_chars + 20)).get? j = some ch →
            ch ≠ ' '))) ∧
    ((∀ j ch, 0 < j → ((protect b).take (max_chars + 20)).get? j = some ch → ch ≠ ' ') →
      find_sentence b =
        (strip (restore ((protect b).take max_chars)),
          strip (restore ((protect b).drop max_chars)))) := by
  have hb : b ≠ [] := by
    intro he
    subst he
    simp [protect, max_chars] at hlong
  have hterm2 : firstIdxP isTerm (protect b) = none :=
    (firstIdxP_none_iff isTerm (protect b)).mpr hterm
  constructor
  · intro i hsp hi
    obtain ⟨hlen, ⟨ch, hch, hp⟩, hafter⟩ :=
      lastIdxP_some (fun c => c == ' ') ((protect b).take (max_chars + 20)) i hsp
    have hch2 : ch = ' ' := by simpa using hp
    subst hch2
    refine ⟨find_sentence_space b hb hterm2 hlong i hsp hi, hch, ?_⟩
    intro j ch2 hj hget he
    subst he
    have := hafter j ' ' hj hget
    simp at this
  · intro hnone
    refine find_sentence_hard b hb hterm2 hlong fun i hsp => ?_
    by_contra hi0
    obtain ⟨hlen, ⟨ch, hch, hp⟩, -⟩ :=
      lastIdxP_some (fun c => c == ' ') ((protect b).take (max_chars + 20)) i hsp
    have hch2 : ch = ' ' := by simpa using hp
    subst hch2
    exact hnone i ' ' (by omega) hch rfl

/-- Witness for C7 amended: the buffer `wbSplit` with its last space at
positive index 150 splits there. -/
theorem c7_amended_witness :
    (0 : Nat) < 150 ∧
    find_sentence wbSplit =
      (strip (restore ((protect wbSplit).take 150)),
        strip (restore ((protect wbSplit).drop 150))) :=
  ⟨by decide,
    ((c7_amended wbSplit (by decide) (by decide)).1 150 (by decide) (by decide)).1⟩

/-- C8: if zero audio segments are produced for a one-shot request, the
result is the absence of audio: `async_process_to_single_file` returns
`none` (not an empty byte string), and the entity's `async_get_tts_audio`
returns `("mp3", none)` when the stream yields zero frames. -/
theorem c8_zero_segments (o : Oracle) (c : Codec) (text message : List Char) :
    (segsFrom o c 0 (sentence_generator [text]) = [] →
      async_process_to_single_file o c text = none) ∧
    (async_process_stream o c [message] = [] →
      async_get_tts o c message = ("mp3", none)) := by
  constructor
  · intro h
    simp [async_process_to_single_file, h]
  · intro h
    simp [async_get_tts, h, mp3Ext]

/-- Witness for C8 with the all-failing oracle. -/
theorem c8_zero_segments_witness :
    async_process_to_single_file failOracle toyCodec hiC = none ∧
    async_get_tts failOracle toyCodec hiC = ("mp3", none) :=
  ⟨(c8_zero_segments failOracle toyCodec hiC hiC).1 (by decide),
    (c8_zero_segments failOracle toyCodec hiC hiC).2 (by decide)⟩

/-- C9: `async_get_tts_audio` returns `("mp3", b)` where `b` is the plain
byte-concatenation of exactly the frames `async_process_stream` yields for
the one-chunk stream of the message, and `("mp3", none)` exactly when that
frame sequence is empty; the decode-concatenate-reencode single-file join is
not this path — there are inputs on which the two differ. -/
theorem c9_one_shot_refinement (o : Oracle) (c : Codec) (m : List Char) :
    (async_get_tts o c m).1 = "mp3" ∧
    ((async_get_tts o c m).2 = none ↔ async_process_stream o c [m] = []) ∧
    (async_process_stream o c [m] ≠ [] →
      (async_get_tts o c m).2 = some (async_process_stream o c [m]).flatten) ∧
    (∃ o2 c2 m2, (async_get_tts o2 c2 m2).2 ≠ async_process_to_single_file o2 c2 m2) := by
  refine ⟨?_, ?_, ?_, ⟨okOracle, toyCodec, hiC, by decide⟩⟩
  · by_cases h : async_process_stream o c [m] = [] <;> simp [async_get_tts, h, mp3Ext]
  · by_cases h : async_process_stream o c [m] = [] <;> simp [async_get_tts, h, mp3Ext]
  · intro h
    simp [async_get_tts, h, mp3Ext]

/-- Witness for C9 on a concrete succeeding stream. -/
theorem c9_one_shot_refinement_witness :
    async_process_stream okOracle toyCodec [hiC] ≠ [] ∧
    (async_get_tts okOracle toyCodec hiC).2 =
      some (async_process_stream okOracle toyCodec [hiC]).flatten :=
  ⟨by decide, (c9_one_shot_refinement okOracle toyCodec hiC).2.2.1 (by decide)⟩

/-- C10: the inner extraction loop of `_sentence_generator` terminates on
every finite buffer: each call to `_find_sentence` either returns an empty
sentence (the loop exits) or a remainder strictly shorter than its buffer,
so running the loop with fuel `b.length + 1` (the definition of
`extractLoop`) computes its fixed point — any larger fuel gives the same
result, i.e. every chunk triggers only finitely many extractions. -/
theorem c10_extraction_terminates :
    (∀ b : List Char, (find_sentence b).1 ≠ [] → (find_sentence b).2.length < b.length) ∧
    (∀ (fuel : Nat) (b : List Char), b.length < fuel → extractLoopF fuel b = extractLoop b) :=
  ⟨fun b h => find_sentence_rest_lt b h,
    fun fuel b h => extractLoopF_stable b.length b le_rfl fuel h⟩

/-- Witness for C10 on the buffer `"Hi. There"`. -/
theorem c10_extraction_terminates_witness :
    (find_sentence (String.toList "Hi. There")).1 ≠ [] ∧
    (find_sentence (String.toList "Hi. There")).2.length <
      (String.toList "Hi. There").length :=
  ⟨by decide, c10_extraction_terminates.1 (String.toList "Hi. There") (by decide)⟩

end EdgeTts
